import Mathlib

/-!
Shallow embedding of the kstr string library (src/kstr.h, src/kstr.c).

A `kstr` object is modelled by its `data_size` (allocated buffer size),
`used` (buffer bytes used, including the nul terminator), `width`
(visible bytes), the cached `basename` (a `NULL` cache pointer is `none`),
and `data`, the first `used` bytes of the character buffer (bytes of the
C buffer past `used` are unspecified and never read, so they are not
modelled).  Bytes are natural numbers; `size_t` arithmetic is on `Nat`
with explicit wrap-around where the C computation can wrap.  An operation
returns `none` where the C code calls `kstr_abort` (which calls `abort()`
and destroys the string); plain allocation failure of `malloc`/`realloc`
on an in-range size is not modelled (allocation is assumed to succeed).
-/

/-- value of `(size_t) -1`, the maximum of the C `size_t` type, on the
64-bit platform modelled here -/
def size_t_max : Nat := 2 ^ 64 - 1

/-- the bytes a C string pointer denotes: the bytes before the first nul -/
def cstr (l : List Nat) : List Nat := l.takeWhile (· != 0)

/-- string object structure (`struct kstr` in src/kstr.c) -/
structure kstr where
  data_size : Nat
  used : Nat
  width : Nat
  basename : Option (List Nat)
  data : List Nat
deriving DecidableEq

/-- growth factor of `kstr_grow` -/
def grow_factor : Nat := 2

/-- initial buffer size of `kstr_new` -/
def init_size : Nat := 64

/-- number of enumerators of `enum kstr_color` -/
def kstr_num_colors : Nat := 9

/-- `kstr_available`: buffer size minus used bytes, in `size_t` arithmetic
(the C expression `this->data_size - this->used` wraps modulo `2 ^ 64`) -/
def kstr_available (this : kstr) : Nat :=
  (2 ^ 64 + this.data_size - this.used) % 2 ^ 64

/-- `kstr_grow`: double the buffer size with an overflow-safe computation;
abort (`none`) when the size is already `(size_t) -1`, clamp to
`(size_t) -1` when doubling would overflow -/
def kstr_grow (this : kstr) : Option kstr :=
  if this.data_size = size_t_max then
    none
  else if size_t_max / grow_factor < this.data_size then
    some { this with data_size := size_t_max }
  else
    some { this with data_size := this.data_size * grow_factor }

/-- the grow loop `while (kstr_available(this) < count) if (kstr_grow(this)
== NULL) return NULL;` shared by `kstr_add_chars` and `kstr_add_vfmt`,
written with explicit fuel to make it total; `grow_fuel` bounds the number
of iterations, which is enough for every state with a nonzero buffer size
(the size at least doubles each iteration up to `size_t_max`, after which
the next iteration aborts) -/
def kstr_ensure : Nat → kstr → Nat → Option kstr
  | 0, _, _ => none
  | fuel + 1, this, count =>
    if kstr_available this < count then
      match kstr_grow this with
      | none => none
      | some grown => kstr_ensure fuel grown count
    else
      some this

/-- fuel for `kstr_ensure`; see its doc comment -/
def grow_fuel : Nat := 128

/-- `kstr_add_chars`: append `count` characters (here: the list `chars`,
whose length is the C `count`; the C callers always pass
`strlen(chars)` or `0`, and `chars == NULL || count == 0` is `chars = []`) -/
def kstr_add_chars (this : kstr) (chars : List Nat) (visible : Bool) :
    Option kstr :=
  if chars = [] then some this
  else
    match kstr_ensure grow_fuel this chars.length with
    | none => none
    | some t =>
        some { t with
          data := t.data.take (t.used - 1) ++ chars ++ [0]
          used := t.used + chars.length
          width := t.width + (if visible then chars.length else 0)
          basename := none }

/-- `kstr_add_text`: `text = none` models a `NULL` pointer (count 0),
`some t` the bytes in memory at the pointer, of which `strlen` measures
the prefix before the first nul -/
def kstr_add_text (this : kstr) (text : Option (List Nat)) : Option kstr :=
  kstr_add_chars this (cstr (text.getD [])) true

/-- foreground color code table of `kstr_add_fg`: the bytes of
"\x1b[39m", "\x1b[30m", "\x1b[34m", "\x1b[36m", "\x1b[32m", "\x1b[35m",
"\x1b[31m", "\x1b[37m", "\x1b[33m", indexed by `kstr_color` -/
def fg_codes : List (List Nat) :=
  [[27, 91, 51, 57, 109], [27, 91, 51, 48, 109], [27, 91, 51, 52, 109],
   [27, 91, 51, 54, 109], [27, 91, 51, 50, 109], [27, 91, 51, 53, 109],
   [27, 91, 51, 49, 109], [27, 91, 51, 55, 109], [27, 91, 51, 51, 109]]

/-- background color code table of `kstr_add_bg`: the bytes of
"\x1b[49m", "\x1b[40m", "\x1b[44m", "\x1b[46m", "\x1b[42m", "\x1b[45m",
"\x1b[41m", "\x1b[47m", "\x1b[43m", indexed by `kstr_color` -/
def bg_codes : List (List Nat) :=
  [[27, 91, 52, 57, 109], [27, 91, 52, 48, 109], [27, 91, 52, 52, 109],
   [27, 91, 52, 54, 109], [27, 91, 52, 50, 109], [27, 91, 52, 53, 109],
   [27, 91, 52, 49, 109], [27, 91, 52, 55, 109], [27, 91, 52, 51, 109]]

/-- `kstr_add_fg`: the color is modelled by its nonnegative integer value
(the C code compares `(uintmax_t) color >= kstr_num_colors` and aborts on
out-of-range values) -/
def kstr_add_fg (this : kstr) (color : Nat) : Option kstr :=
  if kstr_num_colors ≤ color then none
  else kstr_add_chars this (fg_codes.getD color []) false

/-- `kstr_add_bg`, analogous to `kstr_add_fg` -/
def kstr_add_bg (this : kstr) (color : Nat) : Option kstr :=
  if kstr_num_colors ≤ color then none
  else kstr_add_chars this (bg_codes.getD color []) false

/-- `kstr_add_bold`: the bytes of "\x1b[1m" when bold, of "\x1b[22m"
otherwise -/
def kstr_add_bold (this : kstr) (bold : Bool) : Option kstr :=
  kstr_add_chars this (if bold then [27, 91, 49, 109] else [27, 91, 50, 50, 109])
    false

/-- `kstr_add_reset`: the bytes of "\x1b[0m" -/
def kstr_add_reset (this : kstr) : Option kstr :=
  kstr_add_chars this [27, 91, 48, 109] false

/-- `kstr_add_vfmt`.  The host `vsnprintf` is modelled by its result:
`rendered = some r` when the dry-run `vsnprintf(NULL, 0, fmt, args)`
returns the nonnegative length `r.length` and rendering produces the
bytes `r` (the in-place render then writes `r` followed by the nul
terminator), and `rendered = none` when the dry run reports a negative
length, in which case `count` is `0` and nothing is written.  Per the
spec (and the library's test program), a null/absent format string is an
instance of the negative-length case: it appends nothing. -/
def kstr_add_vfmt (this : kstr) (rendered : Option (List Nat)) : Option kstr :=
  match kstr_ensure grow_fuel this (rendered.getD []).length with
  | none => none
  | some t =>
      some { t with
        data := t.data.take (t.used - 1) ++ rendered.getD [] ++ [0]
        used := t.used + (rendered.getD []).length
        width := t.width + (rendered.getD []).length
        basename := none }

/-- `kstr_add_fmt` forwards its variadic arguments to `kstr_add_vfmt` -/
def kstr_add_fmt (this : kstr) (rendered : Option (List Nat)) : Option kstr :=
  kstr_add_vfmt this rendered

/-- `kstr_reset`: rewind the value to empty without altering the buffer
size -/
def kstr_reset (this : kstr) : kstr :=
  { this with data := [0], used := 1, width := 0, basename := none }

/-- `kstr_set_text` = `kstr_reset` then `kstr_add_text` -/
def kstr_set_text (this : kstr) (text : Option (List Nat)) : Option kstr :=
  kstr_add_text (kstr_reset this) text

/-- `kstr_set_vfmt` = `kstr_reset` then `kstr_add_vfmt` -/
def kstr_set_vfmt (this : kstr) (rendered : Option (List Nat)) : Option kstr :=
  kstr_add_vfmt (kstr_reset this) rendered

/-- `kstr_set_fmt` forwards its variadic arguments to `kstr_set_vfmt` -/
def kstr_set_fmt (this : kstr) (rendered : Option (List Nat)) : Option kstr :=
  kstr_set_vfmt this rendered

/-- `kstr_new`: a 64-byte buffer holding the empty value, then
`kstr_add_text` with the initial text -/
def kstr_new (text : Option (List Nat)) : Option kstr :=
  kstr_add_text
    { data_size := init_size, used := 1, width := 0, basename := none,
      data := [0] }
    text

/-- `kstr_copy`: identical sizes and buffer contents, uncached basename -/
def kstr_copy (this : kstr) : kstr :=
  { data_size := this.data_size, used := this.used, width := this.width,
    basename := none, data := this.data }

/-- `kstr_get`: the value the returned `char const *` denotes -/
def kstr_get (this : kstr) : List Nat := cstr this.data

/-- `kstr_get_copy`: `strdup` of the buffer, the same byte string as
`kstr_get` -/
def kstr_get_copy (this : kstr) : List Nat := cstr this.data

/-- `kstr_size` -/
def kstr_size (this : kstr) : Nat := this.used

/-- `kstr_width` -/
def kstr_width (this : kstr) : Nat := this.width

/-- Modelled from the spec: the POSIX `basename()` function of `libgen.h`
used by `kstr_basename` is libc code, not part of src/; the spec states
its rule: trailing separators ignored, an empty value maps to a
single-dot placeholder, a value of only separators maps to a single
separator, otherwise the final path component. -/
def posix_basename (path : List Nat) : List Nat :=
  if path = [] then [46]
  else
    let trimmed := (path.reverse.dropWhile (· == 47)).reverse
    if trimmed = [] then [47]
    else (trimmed.reverse.takeWhile (· != 47)).reverse

/-- `kstr_basename`: return the cached basename when available, otherwise
compute it from a scratch copy of the value, cache it and return it.  The
result pairs the returned bytes with the updated object. -/
def kstr_basename (this : kstr) : List Nat × kstr :=
  match this.basename with
  | some cached => (cached, this)
  | none =>
      let b := posix_basename (kstr_get_copy this)
      (b, { this with basename := some b })

/-- representation invariant of a live string object: the terminator is
present and final, the content before it is nul-free, `width` excludes
the terminator, and the buffer is at least as large as its used part,
at least the initial size, and representable in `size_t` -/
def RepInv (s : kstr) : Prop :=
  1 ≤ s.used ∧
  s.data.length = s.used ∧
  s.data.drop (s.used - 1) = [0] ∧
  (∀ b ∈ s.data.take (s.used - 1), b ≠ 0) ∧
  s.width ≤ s.used - 1 ∧
  s.used ≤ s.data_size ∧
  init_size ≤ s.data_size ∧
  s.data_size ≤ size_t_max

instance (s : kstr) : Decidable (RepInv s) := by
  unfold RepInv; exact inferInstance

/-- the string object produced by `kstr_new` with no initial text -/
def kstr0 : kstr :=
  { data_size := 64, used := 1, width := 0, basename := none, data := [0] }

/-- one public mutation of the Content Mutator, as an event -/
inductive Op where
  | add_text : Option (List Nat) → Op
  | set_text : Option (List Nat) → Op
  | add_vfmt : Option (List Nat) → Op
  | set_vfmt : Option (List Nat) → Op
  | add_bold : Bool → Op
  | add_fg : Nat → Op
  | add_bg : Nat → Op
  | add_reset : Op
deriving DecidableEq

/-- interpret one mutation event -/
def applyOp (s : kstr) : Op → Option kstr
  | .add_text t => kstr_add_text s t
  | .set_text t => kstr_set_text s t
  | .add_vfmt r => kstr_add_vfmt s r
  | .set_vfmt r => kstr_set_vfmt s r
  | .add_bold b => kstr_add_bold s b
  | .add_fg c => kstr_add_fg s c
  | .add_bg c => kstr_add_bg s c
  | .add_reset => kstr_add_reset s

/-- run a sequence of mutation events, stopping at an abort -/
def run (s : kstr) : List Op → Option kstr
  | [] => some s
  | op :: ops =>
      match applyOp s op with
      | none => none
      | some s' => run s' ops

/-- whether an event is one of the styling appends -/
def stylingOp : Op → Bool
  | .add_bold _ => true
  | .add_fg _ => true
  | .add_bg _ => true
  | .add_reset => true
  | _ => false

/-- contract of the host `vsnprintf` on the events: a rendered C string
contains no nul byte -/
def okOp : Op → Prop
  | .add_vfmt (some r) => ∀ b ∈ r, b ≠ 0
  | .set_vfmt (some r) => ∀ b ∈ r, b ≠ 0
  | _ => True

/-- the string objects reachable through the public interface, assuming
the `vsnprintf` contract for formatted appends -/
inductive Reachable : kstr → Prop where
  | new (t : Option (List Nat)) (s : kstr) :
      kstr_new t = some s → Reachable s
  | copy (s : kstr) : Reachable s → Reachable (kstr_copy s)
  | step (s s' : kstr) (op : Op) : Reachable s → okOp op →
      applyOp s op = some s' → Reachable s'
  | base (s : kstr) : Reachable s → Reachable (kstr_basename s).2

/-- coherence of the Derived-View Cache: a cached basename, when present,
is the basename of the current content -/
def CacheOk (s : kstr) : Prop :=
  ∀ b, s.basename = some b → b = posix_basename (kstr_get s)

/-- a string object at the platform maximum buffer size minus one, where
doubling the buffer size would overflow `size_t` -/
def cex7 : kstr :=
  { data_size := size_t_max - 1, used := 1, width := 0, basename := none,
    data := [0] }

/-- the expected width after one mutation event, from the width before
it: appends accumulate the visible byte length of their content, the set
operations restart from the visible byte length of their new content,
and styling appends leave the width unchanged -/
def wstep (w : Nat) : Op → Nat
  | .add_text t => w + (cstr (t.getD [])).length
  | .set_text t => (cstr (t.getD [])).length
  | .add_vfmt r => w + (r.getD []).length
  | .set_vfmt r => (r.getD []).length
  | _ => w

/-! Helper lemmas about `cstr` and the representation invariant. -/

lemma cstr_no_nul {l : List Nat} (h : ∀ b ∈ l, b ≠ 0) : cstr l = l :=
  List.takeWhile_eq_self_iff.mpr fun x hx => by
    simpa using h x hx

lemma cstr_append_nul {l : List Nat} (r : List Nat) (h : ∀ b ∈ l, b ≠ 0) :
    cstr (l ++ 0 :: r) = l := by
  induction l with
  | nil => simp [cstr]
  | cons a as ih =>
      have ha : a ≠ 0 := h a (List.mem_cons_self a as)
      have ih' := ih fun b hb => h b (List.mem_cons_of_mem a hb)
      simp only [List.cons_append, cstr, List.takeWhile_cons] at ih' ⊢
      simpa [ha] using ih'

lemma repInv_data_eq {s : kstr} (h3 : s.data.drop (s.used - 1) = [0]) :
    s.data = s.data.take (s.used - 1) ++ [0] := by
  conv_lhs => rw [← List.take_append_drop (s.used - 1) s.data]
  rw [h3]

lemma kstr_get_eq {s : kstr} (h : RepInv s) :
    kstr_get s = s.data.take (s.used - 1) := by
  obtain ⟨_, _, h3, h4, _⟩ := h
  unfold kstr_get
  conv_lhs => rw [repInv_data_eq h3]
  exact cstr_append_nul [] h4

lemma kstr_get_length {s : kstr} (h : RepInv s) :
    (kstr_get s).length = s.used - 1 := by
  rw [kstr_get_eq h]
  obtain ⟨h1, h2, _⟩ := h
  simp only [List.length_take, h2]
  omega

/-! Helper lemmas about `kstr_grow` and the grow loop. -/

lemma kstr_grow_fields {s t : kstr} (h : kstr_grow s = some t) :
    t.used = s.used ∧ t.width = s.width ∧ t.data = s.data ∧
    t.basename = s.basename := by
  unfold kstr_grow at h
  split at h
  · exact absurd h (by simp)
  · split at h
    all_goals
      have := Option.some.inj h
      subst this
      exact ⟨rfl, rfl, rfl, rfl⟩

lemma kstr_grow_size {s t : kstr} (hmax : s.data_size ≤ size_t_max)
    (h : kstr_grow s = some t) :
    s.data_size ≤ t.data_size ∧ t.data_size ≤ size_t_max := by
  unfold kstr_grow at h
  split at h
  · exact absurd h (by simp)
  · split at h
    next hgt =>
      have := Option.some.inj h; subst this
      exact ⟨hmax, le_refl _⟩
    next hle =>
      have := Option.some.inj h; subst this
      refine ⟨Nat.le_mul_of_pos_right _ (by norm_num [grow_factor]), ?_⟩
      have hle' : s.data_size ≤ size_t_max / grow_factor := Nat.le_of_not_lt hle
      calc s.data_size * grow_factor
      _ ≤ size_t_max / grow_factor * grow_factor :=
          Nat.mul_le_mul_right _ hle'
      _ ≤ size_t_max := Nat.div_mul_le_self _ _

lemma kstr_available_eq {s : kstr} (hud : s.used ≤ s.data_size)
    (hmax : s.data_size ≤ size_t_max) :
    kstr_available s = s.data_size - s.used := by
  unfold kstr_available
  unfold size_t_max at hmax
  omega

lemma kstr_ensure_some {fuel count : Nat} {s t : kstr}
    (hmax : s.data_size ≤ size_t_max)
    (h : kstr_ensure fuel s count = some t) :
    t.used = s.used ∧ t.width = s.width ∧ t.data = s.data ∧
    t.basename = s.basename ∧ s.data_size ≤ t.data_size ∧
    t.data_size ≤ size_t_max ∧ ¬ kstr_available t < count := by
  induction fuel generalizing s with
  | zero => exact absurd h (by simp [kstr_ensure])
  | succ n ih =>
    simp only [kstr_ensure] at h
    split at h
    · cases hg : kstr_grow s with
      | none => rw [hg] at h; exact absurd h (by simp)
      | some g =>
        rw [hg] at h
        obtain ⟨hu, hw, hd, hb⟩ := kstr_grow_fields hg
        obtain ⟨hgs, hgm⟩ := kstr_grow_size hmax hg
        obtain ⟨iu, iw, idt, ib, isz, im, iav⟩ := ih hgm h
        exact ⟨iu.trans hu, iw.trans hw, idt.trans hd, ib.trans hb,
          hgs.trans isz, im, iav⟩
    · have := Option.some.inj h; subst this
      exact ⟨rfl, rfl, rfl, rfl, le_refl _, hmax, by assumption⟩

/-! The shared shape of a successful append: both `kstr_add_chars` and
`kstr_add_vfmt` write the new bytes over the terminator, append a fresh
terminator, and advance the counters. -/

lemma repInv_append {s t : kstr} {bytes : List Nat} {w : Nat}
    (hInv : RepInv s) (hb : ∀ b ∈ bytes, b ≠ 0)
    (hdata : t.data = s.data.take (s.used - 1) ++ bytes ++ [0])
    (hused : t.used = s.used + bytes.length)
    (hwidth : t.width = s.width + w) (hwa : w ≤ bytes.length)
    (hfit : s.used + bytes.length ≤ t.data_size)
    (hsz : s.data_size ≤ t.data_size) (hm : t.data_size ≤ size_t_max) :
    RepInv t ∧ kstr_get t = kstr_get s ++ bytes := by
  obtain ⟨h1, h2, h3, h4, h5, h6, h7, h8⟩ := hInv
  have hget : kstr_get s = s.data.take (s.used - 1) :=
    kstr_get_eq ⟨h1, h2, h3, h4, h5, h6, h7, h8⟩
  have hlen_take : (s.data.take (s.used - 1)).length = s.used - 1 := by
    simp only [List.length_take, h2]
    omega
  have hlen_front : (s.data.take (s.used - 1) ++ bytes).length
      = t.used - 1 := by
    simp only [List.length_append, hlen_take, hused]
    omega
  have hassoc : t.data = (s.data.take (s.used - 1) ++ bytes) ++ [0] := by
    rw [hdata, List.append_assoc]
  have hmem : ∀ b ∈ s.data.take (s.used - 1) ++ bytes, b ≠ 0 := by
    intro b hbm
    rcases List.mem_append.mp hbm with hb1 | hb2
    · exact h4 b hb1
    · exact hb b hb2
  refine ⟨⟨?_, ?_, ?_, ?_, ?_, ?_, ?_, ?_⟩, ?_⟩
  · omega
  · rw [hassoc]
    simp only [List.length_append, hlen_take, List.length_singleton]
    omega
  · rw [hassoc, List.drop_left' hlen_front]
  · rw [hassoc, List.take_left' hlen_front]
    exact hmem
  · omega
  · omega
  · exact h7.trans hsz
  · exact hm
  · have hget' : cstr s.data = s.data.take (s.used - 1) := hget
    unfold kstr_get
    rw [hassoc, cstr_append_nul [] hmem, hget']

lemma kstr_add_chars_spec {s t : kstr} {chars : List Nat} {visible : Bool}
    (hInv : RepInv s) (hch : ∀ b ∈ chars, b ≠ 0)
    (h : kstr_add_chars s chars visible = some t) :
    RepInv t ∧ kstr_get t = kstr_get s ++ chars ∧
    t.used = s.used + chars.length ∧
    t.width = s.width + (if visible then chars.length else 0) ∧
    s.data_size ≤ t.data_size ∧
    (chars ≠ [] → t.basename = none) ∧
    (chars = [] → t = s) := by
  unfold kstr_add_chars at h
  split at h
  next he =>
    have := Option.some.inj h; subst this
    subst he
    refine ⟨hInv, by simp, by simp, ?_, le_refl _, by simp, fun _ => rfl⟩
    simp
  next he =>
    cases hk : kstr_ensure grow_fuel s chars.length with
    | none => rw [hk] at h; exact absurd h (by simp)
    | some u =>
      rw [hk] at h
      have := Option.some.inj h; subst this
      obtain ⟨hu, hw, hd, hb, hsz, hm, hav⟩ :=
        kstr_ensure_some hInv.2.2.2.2.2.2.2 hk
      have hud : u.used ≤ u.data_size := by
        rw [hu]; exact hInv.2.2.2.2.2.1.trans hsz
      rw [kstr_available_eq hud hm, hu] at hav
      have hfit : s.used + chars.length ≤ u.data_size := by omega
      obtain ⟨hi, hg⟩ := repInv_append
        (t :=
          { u with
            data := u.data.take (u.used - 1) ++ chars ++ [0]
            used := u.used + chars.length
            width := u.width + (if visible then chars.length else 0)
            basename := none })
        (w := if visible then chars.length else 0)
        hInv hch (by simp [hd, hu]) (by simp [hu]) (by simp [hw])
        (by split <;> omega) (by simpa using hfit) (by simpa using hsz)
        (by simpa using hm)
      exact ⟨hi, hg, by simp [hu], by simp [hw], by simpa using hsz,
        fun _ => rfl, fun hc => absurd hc he⟩

lemma kstr_add_vfmt_spec {s t : kstr} {rendered : Option (List Nat)}
    (hInv : RepInv s) (hr : ∀ b ∈ rendered.getD [], b ≠ 0)
    (h : kstr_add_vfmt s rendered = some t) :
    RepInv t ∧ kstr_get t = kstr_get s ++ rendered.getD [] ∧
    t.used = s.used + (rendered.getD []).length ∧
    t.width = s.width + (rendered.getD []).length ∧
    s.data_size ≤ t.data_size ∧ t.basename = none := by
  unfold kstr_add_vfmt at h
  cases hk : kstr_ensure grow_fuel s (rendered.getD []).length with
  | none => rw [hk] at h; exact absurd h (by simp)
  | some u =>
    rw [hk] at h
    have := Option.some.inj h; subst this
    obtain ⟨hu, hw, hd, hb, hsz, hm, hav⟩ :=
      kstr_ensure_some hInv.2.2.2.2.2.2.2 hk
    have hud : u.used ≤ u.data_size := by
      rw [hu]; exact hInv.2.2.2.2.2.1.trans hsz
    rw [kstr_available_eq hud hm, hu] at hav
    have hfit : s.used + (rendered.getD []).length ≤ u.data_size := by omega
    obtain ⟨hi, hg⟩ := repInv_append
      (t :=
        { u with
          data := u.data.take (u.used - 1) ++ rendered.getD [] ++ [0]
          used := u.used + (rendered.getD []).length
          width := u.width + (rendered.getD []).length
          basename := none })
      (w := (rendered.getD []).length)
      hInv hr (by simp [hd, hu]) (by simp [hu]) (by simp [hw])
      (le_refl _) (by simpa using hfit) (by simpa using hsz)
      (by simpa using hm)
    exact ⟨hi, hg, by simp [hu], by simp [hw], by simpa using hsz, rfl⟩

lemma repInv_reset {s : kstr} (hInv : RepInv s) : RepInv (kstr_reset s) := by
  obtain ⟨_, _, _, _, _, h6, h7, h8⟩ := hInv
  unfold RepInv kstr_reset
  refine ⟨le_refl _, rfl, rfl, by simp, le_refl _, ?_, h7, h8⟩
  show (1 : Nat) ≤ s.data_size
  unfold init_size at h7
  omega

lemma kstr_get_reset (s : kstr) : kstr_get (kstr_reset s) = [] := rfl

lemma codes_no_nul {codes : List (List Nat)}
    (hc : ∀ code ∈ codes, ∀ b ∈ code, b ≠ 0) (c : Nat) :
    ∀ b ∈ codes.getD c [], b ≠ 0 := by
  rw [List.getD_eq_getElem?_getD]
  cases hg : codes[c]? with
  | none => simp
  | some code => simpa using hc code (List.getElem?_mem hg)

lemma fg_codes_no_nul (c : Nat) : ∀ b ∈ fg_codes.getD c [], b ≠ 0 :=
  codes_no_nul (by decide) c

lemma bg_codes_no_nul (c : Nat) : ∀ b ∈ bg_codes.getD c [], b ≠ 0 :=
  codes_no_nul (by decide) c

/-! Per-operation specifications. -/

lemma cstr_no_nul_self (l : List Nat) : ∀ b ∈ cstr l, b ≠ 0 := by
  intro b hb
  have := List.mem_takeWhile_imp hb
  simpa using this

lemma kstr_add_text_spec {s t : kstr} {text : Option (List Nat)}
    (hInv : RepInv s) (h : kstr_add_text s text = some t) :
    RepInv t ∧ kstr_get t = kstr_get s ++ cstr (text.getD []) ∧
    t.used = s.used + (cstr (text.getD [])).length ∧
    t.width = s.width + (cstr (text.getD [])).length ∧
    (cstr (text.getD []) ≠ [] → t.basename = none) ∧
    (cstr (text.getD []) = [] → t = s) := by
  obtain ⟨hi, hg, hu, hw, _, hb, he⟩ :=
    kstr_add_chars_spec hInv (cstr_no_nul_self (text.getD [])) h
  exact ⟨hi, hg, hu, by simpa using hw, hb, he⟩

lemma kstr_add_fg_spec {s t : kstr} {c : Nat} (hInv : RepInv s)
    (h : kstr_add_fg s c = some t) :
    RepInv t ∧ kstr_get t = kstr_get s ++ fg_codes.getD c [] ∧
    t.used = s.used + (fg_codes.getD c []).length ∧
    t.width = s.width ∧ t.basename = none := by
  unfold kstr_add_fg at h
  split at h
  · exact absurd h (by simp)
  next hc =>
    obtain ⟨hi, hg, hu, hw, _, hb, _⟩ :=
      kstr_add_chars_spec hInv (fg_codes_no_nul c) h
    have hlt : c < kstr_num_colors := Nat.lt_of_not_le hc
    have hne : fg_codes.getD c [] ≠ [] := by
      unfold kstr_num_colors at hlt
      interval_cases c <;> decide
    exact ⟨hi, hg, hu, by simpa using hw, hb hne⟩

lemma kstr_add_bg_spec {s t : kstr} {c : Nat} (hInv : RepInv s)
    (h : kstr_add_bg s c = some t) :
    RepInv t ∧ kstr_get t = kstr_get s ++ bg_codes.getD c [] ∧
    t.used = s.used + (bg_codes.getD c []).length ∧
    t.width = s.width ∧ t.basename = none := by
  unfold kstr_add_bg at h
  split at h
  · exact absurd h (by simp)
  next hc =>
    obtain ⟨hi, hg, hu, hw, _, hb, _⟩ :=
      kstr_add_chars_spec hInv (bg_codes_no_nul c) h
    have hlt : c < kstr_num_colors := Nat.lt_of_not_le hc
    have hne : bg_codes.getD c [] ≠ [] := by
      unfold kstr_num_colors at hlt
      interval_cases c <;> decide
    exact ⟨hi, hg, hu, by simpa using hw, hb hne⟩

lemma kstr_add_bold_spec {s t : kstr} {b : Bool} (hInv : RepInv s)
    (h : kstr_add_bold s b = some t) :
    RepInv t ∧
    kstr_get t =
      kstr_get s ++ (if b then [27, 91, 49, 109] else [27, 91, 50, 50, 109]) ∧
    t.width = s.width ∧ t.basename = none := by
  obtain ⟨hi, hg, _, hw, _, hb, _⟩ :=
    kstr_add_chars_spec hInv (by cases b <;> decide) h
  exact ⟨hi, hg, by simpa using hw, hb (by cases b <;> decide)⟩

lemma kstr_add_reset_spec {s t : kstr} (hInv : RepInv s)
    (h : kstr_add_reset s = some t) :
    RepInv t ∧ kstr_get t = kstr_get s ++ [27, 91, 48, 109] ∧
    t.width = s.width ∧ t.basename = none := by
  obtain ⟨hi, hg, _, hw, _, hb, _⟩ :=
    kstr_add_chars_spec hInv (by decide) h
  exact ⟨hi, hg, by simpa using hw, hb (by decide)⟩

lemma kstr_set_text_spec {s t : kstr} {text : Option (List Nat)}
    (hInv : RepInv s) (h : kstr_set_text s text = some t) :
    RepInv t ∧ kstr_get t = cstr (text.getD []) ∧
    t.used = 1 + (cstr (text.getD [])).length ∧
    t.width = (cstr (text.getD [])).length ∧ t.basename = none := by
  unfold kstr_set_text at h
  obtain ⟨hi, hg, hu, hw, hb, he⟩ :=
    kstr_add_text_spec (repInv_reset hInv) h
  refine ⟨hi, ?_, by simpa [kstr_reset] using hu, by simpa [kstr_reset] using hw, ?_⟩
  · rw [hg, kstr_get_reset]; simp
  · rcases eq_or_ne (cstr (text.getD [])) [] with hce | hce
    · rw [he hce]; rfl
    · exact hb hce

lemma kstr_set_vfmt_spec {s t : kstr} {rendered : Option (List Nat)}
    (hInv : RepInv s) (hr : ∀ b ∈ rendered.getD [], b ≠ 0)
    (h : kstr_set_vfmt s rendered = some t) :
    RepInv t ∧ kstr_get t = rendered.getD [] ∧
    t.used = 1 + (rendered.getD []).length ∧
    t.width = (rendered.getD []).length ∧ t.basename = none := by
  unfold kstr_set_vfmt at h
  obtain ⟨hi, hg, hu, hw, _, hb⟩ :=
    kstr_add_vfmt_spec (repInv_reset hInv) hr h
  refine ⟨hi, ?_, by simpa [kstr_reset] using hu, by simpa [kstr_reset] using hw, hb⟩
  rw [hg, kstr_get_reset]; simp

lemma repInv_kstr0 : RepInv kstr0 := by
  unfold RepInv kstr0 init_size size_t_max
  refine ⟨by decide, by decide, by decide, by decide, by decide, by decide,
    by decide, by norm_num⟩

lemma kstr_new_spec {text : Option (List Nat)} {t : kstr}
    (h : kstr_new text = some t) :
    RepInv t ∧ kstr_get t = cstr (text.getD []) ∧
    t.used = 1 + (cstr (text.getD [])).length ∧
    t.width = (cstr (text.getD [])).length ∧ t.basename = none := by
  have h' : kstr_add_text kstr0 text = some t := h
  obtain ⟨hi, hg, hu, hw, hb, he⟩ := kstr_add_text_spec repInv_kstr0 h'
  refine ⟨hi, ?_, by simpa [kstr0] using hu, by simpa [kstr0] using hw, ?_⟩
  · rw [hg]
    have : kstr_get kstr0 = [] := rfl
    rw [this]; simp
  · rcases eq_or_ne (cstr (text.getD [])) [] with hce | hce
    · rw [he hce]; rfl
    · exact hb hce

lemma repInv_copy {s : kstr} (h : RepInv s) : RepInv (kstr_copy s) := by
  obtain ⟨h1, h2, h3, h4, h5, h6, h7, h8⟩ := h
  exact ⟨h1, h2, h3, h4, h5, h6, h7, h8⟩

lemma repInv_basename {s : kstr} (h : RepInv s) :
    RepInv (kstr_basename s).2 := by
  unfold kstr_basename
  split
  · exact h
  · obtain ⟨h1, h2, h3, h4, h5, h6, h7, h8⟩ := h
    exact ⟨h1, h2, h3, h4, h5, h6, h7, h8⟩

lemma repInv_applyOp {s t : kstr} {op : Op} (hInv : RepInv s)
    (hok : okOp op) (h : applyOp s op = some t) : RepInv t := by
  cases op with
  | add_text x => exact (kstr_add_text_spec hInv h).1
  | set_text x => exact (kstr_set_text_spec hInv h).1
  | add_vfmt r =>
      refine (kstr_add_vfmt_spec hInv ?_ h).1
      cases r with
      | none => simp
      | some l => simpa [okOp] using hok
  | set_vfmt r =>
      refine (kstr_set_vfmt_spec hInv ?_ h).1
      cases r with
      | none => simp
      | some l => simpa [okOp] using hok
  | add_bold b => exact (kstr_add_bold_spec hInv h).1
  | add_fg c => exact (kstr_add_fg_spec hInv h).1
  | add_bg c => exact (kstr_add_bg_spec hInv h).1
  | add_reset => exact (kstr_add_reset_spec hInv h).1

lemma reachable_repInv {s : kstr} (h : Reachable s) : RepInv s := by
  induction h with
  | new t s hn => exact (kstr_new_spec hn).1
  | copy s _ ih => exact repInv_copy ih
  | step s s' op _ hok happ ih => exact repInv_applyOp ih hok happ
  | base s _ ih => exact repInv_basename ih

/-! Width bookkeeping, independent of the representation invariant. -/

lemma kstr_ensure_fields {fuel count : Nat} {s t : kstr}
    (h : kstr_ensure fuel s count = some t) :
    t.used = s.used ∧ t.width = s.width ∧ t.data = s.data ∧
    t.basename = s.basename := by
  induction fuel generalizing s with
  | zero => exact absurd h (by simp [kstr_ensure])
  | succ n ih =>
    simp only [kstr_ensure] at h
    split at h
    · cases hg : kstr_grow s with
      | none => rw [hg] at h; exact absurd h (by simp)
      | some g =>
          rw [hg] at h
          obtain ⟨hu, hw, hd, hb⟩ := kstr_grow_fields hg
          obtain ⟨iu, iw, idt, ib⟩ := ih h
          exact ⟨iu.trans hu, iw.trans hw, idt.trans hd, ib.trans hb⟩
    · have := Option.some.inj h; subst this
      exact ⟨rfl, rfl, rfl, rfl⟩

lemma kstr_add_chars_width {s t : kstr} {chars : List Nat} {visible : Bool}
    (h : kstr_add_chars s chars visible = some t) :
    t.width = s.width + (if visible then chars.length else 0) := by
  unfold kstr_add_chars at h
  split at h
  next he =>
    have := Option.some.inj h; subst this
    subst he; simp
  next he =>
    cases hk : kstr_ensure grow_fuel s chars.length with
    | none => rw [hk] at h; exact absurd h (by simp)
    | some u =>
        rw [hk] at h
        have := Option.some.inj h; subst this
        have hw := (kstr_ensure_fields hk).2.1
        simpa using congrArg (· + (if visible then chars.length else 0)) hw

lemma kstr_add_vfmt_width {s t : kstr} {rendered : Option (List Nat)}
    (h : kstr_add_vfmt s rendered = some t) :
    t.width = s.width + (rendered.getD []).length := by
  unfold kstr_add_vfmt at h
  cases hk : kstr_ensure grow_fuel s (rendered.getD []).length with
  | none => rw [hk] at h; exact absurd h (by simp)
  | some u =>
      rw [hk] at h
      have := Option.some.inj h; subst this
      have hw := (kstr_ensure_fields hk).2.1
      simpa using congrArg (· + (rendered.getD []).length) hw

lemma applyOp_width {s t : kstr} {op : Op} (h : applyOp s op = some t) :
    t.width = wstep s.width op := by
  cases op with
  | add_text x => simpa [wstep] using kstr_add_chars_width h
  | set_text x =>
      have hs :
          kstr_add_chars (kstr_reset s) (cstr (x.getD [])) true = some t := h
      simpa [wstep, kstr_reset] using kstr_add_chars_width hs
  | add_vfmt r => simpa [wstep] using kstr_add_vfmt_width h
  | set_vfmt r =>
      have hs : kstr_add_vfmt (kstr_reset s) r = some t := h
      simpa [wstep, kstr_reset] using kstr_add_vfmt_width hs
  | add_bold b => simpa [wstep] using kstr_add_chars_width h
  | add_fg c =>
      have h' : kstr_add_fg s c = some t := h
      unfold kstr_add_fg at h'
      split at h'
      · exact absurd h' (by simp)
      · simpa [wstep] using kstr_add_chars_width h'
  | add_bg c =>
      have h' : kstr_add_bg s c = some t := h
      unfold kstr_add_bg at h'
      split at h'
      · exact absurd h' (by simp)
      · simpa [wstep] using kstr_add_chars_width h'
  | add_reset =>
      have h' : kstr_add_chars s [27, 91, 48, 109] false = some t := h
      simpa [wstep] using kstr_add_chars_width h'

lemma run_width {ops : List Op} {s t : kstr} (h : run s ops = some t) :
    t.width = List.foldl wstep s.width ops := by
  induction ops generalizing s with
  | nil =>
      simp only [run] at h
      have := Option.some.inj h; subst this; rfl
  | cons op ops ih =>
      simp only [run] at h
      cases ha : applyOp s op with
      | none => rw [ha] at h; exact absurd h (by simp)
      | some u =>
          rw [ha] at h
          rw [List.foldl_cons, ← applyOp_width ha]
          exact ih h

/-! Coherence of the basename cache along reachable states. -/

lemma cacheOk_of_none {t : kstr} (h : t.basename = none) : CacheOk t := by
  intro b hb
  rw [h] at hb
  cases hb

lemma cacheOk_basename {s : kstr} (hok : CacheOk s) :
    CacheOk (kstr_basename s).2 := by
  unfold kstr_basename
  split
  next cached heq => exact hok
  next heq =>
      intro b hb
      have : posix_basename (kstr_get_copy s) = b := Option.some.inj hb
      subst this
      rfl

lemma cacheOk_applyOp {s t : kstr} {op : Op} (hInv : RepInv s)
    (hok : CacheOk s) (h : applyOp s op = some t) : CacheOk t := by
  cases op with
  | add_text x =>
      obtain ⟨_, _, _, _, hb, he⟩ := kstr_add_text_spec hInv h
      rcases eq_or_ne (cstr (x.getD [])) [] with hce | hce
      · rw [he hce]; exact hok
      · exact cacheOk_of_none (hb hce)
  | set_text x => exact cacheOk_of_none (kstr_set_text_spec hInv h).2.2.2.2
  | add_vfmt r =>
      have h' : kstr_add_vfmt s r = some t := h
      unfold kstr_add_vfmt at h'
      cases hk : kstr_ensure grow_fuel s (r.getD []).length with
      | none => rw [hk] at h'; exact absurd h' (by simp)
      | some u =>
          rw [hk] at h'
          have := Option.some.inj h'; subst this
          exact cacheOk_of_none rfl
  | set_vfmt r =>
      have h' : kstr_add_vfmt (kstr_reset s) r = some t := h
      unfold kstr_add_vfmt at h'
      cases hk : kstr_ensure grow_fuel (kstr_reset s) (r.getD []).length with
      | none => rw [hk] at h'; exact absurd h' (by simp)
      | some u =>
          rw [hk] at h'
          have := Option.some.inj h'; subst this
          exact cacheOk_of_none rfl
  | add_bold b => exact cacheOk_of_none (kstr_add_bold_spec hInv h).2.2.2
  | add_fg c => exact cacheOk_of_none (kstr_add_fg_spec hInv h).2.2.2.2
  | add_bg c => exact cacheOk_of_none (kstr_add_bg_spec hInv h).2.2.2.2
  | add_reset => exact cacheOk_of_none (kstr_add_reset_spec hInv h).2.2.2

lemma reachable_cacheOk {s : kstr} (h : Reachable s) : CacheOk s := by
  induction h with
  | new t s hn => exact cacheOk_of_none (kstr_new_spec hn).2.2.2.2
  | copy s _ ih => exact cacheOk_of_none rfl
  | step s s' op hr hok happ ih =>
      exact cacheOk_applyOp (reachable_repInv hr) ih happ
  | base s _ ih => exact cacheOk_basename ih

/-! Lemmas about `kstr_basename` itself. -/

lemma kstr_basename_val {s : kstr} (hok : CacheOk s) :
    (kstr_basename s).1 = posix_basename (kstr_get s) := by
  unfold kstr_basename
  cases hb : s.basename with
  | none => rfl
  | some b => exact hok b hb

lemma kstr_basename_memo (s : kstr) :
    ((kstr_basename s).2).basename = some (kstr_basename s).1 ∧
    kstr_basename ((kstr_basename s).2) = kstr_basename s := by
  unfold kstr_basename
  cases hb : s.basename with
  | none => exact ⟨rfl, rfl⟩
  | some b => exact ⟨hb, by rw [hb]⟩

/-! A zero-byte append never grows; a failed render changes nothing but
the cache. -/

lemma kstr_ensure_zero (s : kstr) : kstr_ensure grow_fuel s 0 = some s := by
  show kstr_ensure (127 + 1) s 0 = some s
  simp [kstr_ensure]

lemma kstr_add_vfmt_none {s : kstr} (hInv : RepInv s) :
    kstr_add_vfmt s none = some { s with basename := none } := by
  obtain ⟨h1, h2, h3, _⟩ := hInv
  have hdata := repInv_data_eq h3
  unfold kstr_add_vfmt
  simp only [Option.getD_none, List.length_nil]
  rw [kstr_ensure_zero]
  simp only [List.append_nil, Nat.add_zero, Option.some.injEq]
  rw [← hdata]

/-! Totality of the grow loop: with the invariant's bounds, the fuel of
`kstr_ensure` is never exhausted for a request that fits in `size_t`. -/

lemma kstr_ensure_succ_grow {fuel count : Nat} {s g : kstr}
    (hav : kstr_available s < count) (hg : kstr_grow s = some g) :
    kstr_ensure (fuel + 1) s count = kstr_ensure fuel g count := by
  simp only [kstr_ensure]
  rw [if_pos hav, hg]

lemma kstr_ensure_succ_done {fuel count : Nat} {s : kstr}
    (hav : ¬ kstr_available s < count) :
    kstr_ensure (fuel + 1) s count = some s := by
  simp only [kstr_ensure]
  rw [if_neg hav]

lemma kstr_ensure_total {fuel count : Nat} {s : kstr}
    (hud : s.used ≤ s.data_size) (hmax : s.data_size ≤ size_t_max)
    (hcount : count + s.used ≤ size_t_max)
    (hfuel : size_t_max ≤ s.data_size * 2 ^ fuel) :
    ∃ t, kstr_ensure (fuel + 1) s count = some t := by
  induction fuel generalizing s with
  | zero =>
      have hds : s.data_size = size_t_max :=
        le_antisymm hmax (by simpa using hfuel)
      have hav : ¬ kstr_available s < count := by
        rw [kstr_available_eq hud hmax]
        omega
      exact ⟨s, kstr_ensure_succ_done hav⟩
  | succ n ih =>
      by_cases hav : kstr_available s < count
      · have havv := hav
        rw [kstr_available_eq hud hmax] at havv
        have hne : s.data_size ≠ size_t_max := by
          intro he; rw [he] at havv; omega
        have hpow : (0 : Nat) < 2 ^ n := Nat.pos_pow_of_pos n (by norm_num)
        by_cases hbig : size_t_max / grow_factor < s.data_size
        · have hgrow :
              kstr_grow s = some { s with data_size := size_t_max } := by
            unfold kstr_grow
            rw [if_neg hne, if_pos hbig]
          obtain ⟨t, ht⟩ := ih (s := { s with data_size := size_t_max })
            (hud.trans hmax) (le_refl _) hcount
            (Nat.le_mul_of_pos_right _ hpow)
          exact ⟨t, by rw [kstr_ensure_succ_grow hav hgrow]; exact ht⟩
        · have hgrow : kstr_grow s =
              some { s with data_size := s.data_size * grow_factor } := by
            unfold kstr_grow
            rw [if_neg hne, if_neg hbig]
          have hmax' : s.data_size * grow_factor ≤ size_t_max := by
            have hle : s.data_size ≤ size_t_max / grow_factor :=
              Nat.le_of_not_lt hbig
            calc s.data_size * grow_factor
            _ ≤ size_t_max / grow_factor * grow_factor :=
                Nat.mul_le_mul_right _ hle
            _ ≤ size_t_max := Nat.div_mul_le_self _ _
          have hud' : s.used ≤ s.data_size * grow_factor :=
            hud.trans (Nat.le_mul_of_pos_right _ (by norm_num [grow_factor]))
          have hfuel' : size_t_max ≤ s.data_size * grow_factor * 2 ^ n := by
            have heq : s.data_size * 2 ^ (n + 1)
                = s.data_size * grow_factor * 2 ^ n := by
              unfold grow_factor
              ring
            exact le_of_le_of_eq hfuel heq
          obtain ⟨t, ht⟩ := ih
            (s := { s with data_size := s.data_size * grow_factor })
            hud' hmax' hcount hfuel'
          exact ⟨t, by rw [kstr_ensure_succ_grow hav hgrow]; exact ht⟩
      · exact ⟨s, kstr_ensure_succ_done hav⟩

lemma kstr_add_chars_total {s : kstr} (chars : List Nat) (visible : Bool)
    (hInv : RepInv s) (hlen : chars.length + s.used ≤ size_t_max) :
    ∃ t, kstr_add_chars s chars visible = some t := by
  rcases eq_or_ne chars [] with he | hne
  · exact ⟨s, by simp [kstr_add_chars, he]⟩
  · obtain ⟨h1, h2, h3, h4, h5, h6, h7, h8⟩ := hInv
    have hfuel : size_t_max ≤ s.data_size * 2 ^ 127 := by
      calc size_t_max ≤ init_size * 2 ^ 127 := by decide
      _ ≤ s.data_size * 2 ^ 127 := Nat.mul_le_mul_right _ h7
    obtain ⟨u, hu⟩ := kstr_ensure_total h6 h8 hlen hfuel
    refine ⟨{ u with
        data := u.data.take (u.used - 1) ++ chars ++ [0]
        used := u.used + chars.length
        width := u.width + (if visible then chars.length else 0)
        basename := none }, ?_⟩
    unfold kstr_add_chars
    rw [if_neg hne, show grow_fuel = 127 + 1 from rfl, hu]

/-! Claim theorems. -/

/-- C1: every public operation (new, copy, set_text, set_formatted,
append_text, append_formatted, append_bold, append_foreground,
append_background, append_reset) preserves the representation invariant
`RepInv` of a live string object, whose conjuncts include `used ≥ 1`, the
nul terminator at index `used - 1` of `data`, `width ≤ used - 1`,
`capacity ≥ used` and `capacity ≥ 64`.  The formatted operations carry
the `vsnprintf` contract that a rendered C string has no interior nul. -/
theorem C1_ops_preserve_invariant (s : kstr) (hInv : RepInv s) :
    (∀ (x : Option (List Nat)) (s' : kstr), kstr_new x = some s' →
      RepInv s') ∧
    RepInv (kstr_copy s) ∧
    (∀ (x : Option (List Nat)) (s' : kstr),
      kstr_set_text s x = some s' → RepInv s') ∧
    (∀ (r : List Nat) (s' : kstr), (∀ b ∈ r, b ≠ 0) →
      kstr_set_vfmt s (some r) = some s' → RepInv s') ∧
    (∀ s' : kstr, kstr_set_vfmt s none = some s' → RepInv s') ∧
    (∀ (x : Option (List Nat)) (s' : kstr),
      kstr_add_text s x = some s' → RepInv s') ∧
    (∀ (r : List Nat) (s' : kstr), (∀ b ∈ r, b ≠ 0) →
      kstr_add_vfmt s (some r) = some s' → RepInv s') ∧
    (∀ s' : kstr, kstr_add_vfmt s none = some s' → RepInv s') ∧
    (∀ (b : Bool) (s' : kstr), kstr_add_bold s b = some s' → RepInv s') ∧
    (∀ (c : Nat) (s' : kstr), kstr_add_fg s c = some s' → RepInv s') ∧
    (∀ (c : Nat) (s' : kstr), kstr_add_bg s c = some s' → RepInv s') ∧
    (∀ s' : kstr, kstr_add_reset s = some s' → RepInv s') := by
  refine ⟨?_, repInv_copy hInv, ?_, ?_, ?_, ?_, ?_, ?_, ?_, ?_, ?_, ?_⟩
  · intro x s' h; exact (kstr_new_spec h).1
  · intro x s' h; exact (kstr_set_text_spec hInv h).1
  · intro r s' hr h; exact (kstr_set_vfmt_spec hInv (by simpa using hr) h).1
  · intro s' h; exact (kstr_set_vfmt_spec hInv (by simp) h).1
  · intro x s' h; exact (kstr_add_text_spec hInv h).1
  · intro r s' hr h; exact (kstr_add_vfmt_spec hInv (by simpa using hr) h).1
  · intro s' h; exact (kstr_add_vfmt_spec hInv (by simp) h).1
  · intro b s' h; exact (kstr_add_bold_spec hInv h).1
  · intro c s' h; exact (kstr_add_fg_spec hInv h).1
  · intro c s' h; exact (kstr_add_bg_spec hInv h).1
  · intro s' h; exact (kstr_add_reset_spec hInv h).1

/-- witness for C1 at the empty string object -/
theorem C1_witness : RepInv kstr0 ∧ RepInv (kstr_copy kstr0) :=
  ⟨repInv_kstr0, (C1_ops_preserve_invariant kstr0 repInv_kstr0).2.1⟩

/-- C2: after a new with initial text and any sequence of mutation events
that succeeds, the width equals the fold of `wstep` (appends accumulate
visible byte lengths, set operations restart from their own content's
visible length, styling events add nothing); and every styling event
leaves the width of any string unchanged. -/
theorem C2_width_accounting (t : Option (List Nat)) (s0 : kstr)
    (h0 : kstr_new t = some s0) (ops : List Op) (s1 : kstr)
    (h : run s0 ops = some s1) :
    s1.width = List.foldl wstep (cstr (t.getD [])).length ops ∧
    (∀ (u u' : kstr) (op : Op), stylingOp op = true →
      applyOp u op = some u' → u'.width = u.width) := by
  constructor
  · rw [run_width h, (kstr_new_spec h0).2.2.2.1]
  · intro u u' op hst happ
    rw [applyOp_width happ]
    cases op <;> simp [stylingOp] at hst <;> rfl

/-- witness for C2: new("AB"), then bold, then append "C" -/
theorem C2_witness :
    ({ data_size := 64, used := 8, width := 3, basename := none,
       data := [65, 66, 27, 91, 49, 109, 67, 0] } : kstr).width
      = List.foldl wstep (cstr ((some [65, 66]).getD [])).length
          [Op.add_bold true, Op.add_text (some [67])] :=
  (C2_width_accounting (some [65, 66])
    { data_size := 64, used := 3, width := 2, basename := none,
      data := [65, 66, 0] }
    (by decide)
    [Op.add_bold true, Op.add_text (some [67])]
    { data_size := 64, used := 8, width := 3, basename := none,
      data := [65, 66, 27, 91, 49, 109, 67, 0] }
    (by decide)).1

/-- C3: for every nul-free initial text whose length fits the platform
(at most `size_t_max - 1` bytes, so that the text and its terminator are
representable), the constructor succeeds and `get` returns exactly that
text; an absent/null initial text gives the empty value. -/
theorem C3_get_new (t : List Nat) (h0 : (0 : Nat) ∉ t)
    (h1 : t.length ≤ size_t_max - 1) :
    (∃ s, kstr_new (some t) = some s ∧ kstr_get s = t) ∧
    (∃ s, kstr_new none = some s ∧ kstr_get s = []) := by
  constructor
  · have hnn : ∀ b ∈ t, b ≠ 0 := by
      intro b hb hb0
      rw [hb0] at hb
      exact h0 hb
    have hct : cstr t = t := cstr_no_nul hnn
    have hlen : (cstr t).length + kstr0.used ≤ size_t_max := by
      rw [hct]
      show t.length + 1 ≤ size_t_max
      unfold size_t_max at h1 ⊢
      omega
    obtain ⟨u, hu⟩ := kstr_add_chars_total (cstr t) true repInv_kstr0 hlen
    have hnew : kstr_new (some t) = some u := by
      show kstr_add_chars kstr0 (cstr t) true = some u
      exact hu
    refine ⟨u, hnew, ?_⟩
    have hg := (kstr_new_spec hnew).2.1
    rw [hg]
    simpa using hct
  · exact ⟨kstr0, rfl, rfl⟩

/-- witness for C3 at a multi-byte UTF-8 text -/
theorem C3_witness :
    (∃ s, kstr_new (some [206, 177]) = some s ∧ kstr_get s = [206, 177]) ∧
    (∃ s, kstr_new none = some s ∧ kstr_get s = []) :=
  C3_get_new [206, 177] (by decide) (by decide)

/-- C4: in every reachable state, the size equals the byte length of the
value returned by `get` plus one for the terminator. -/
theorem C4_size_eq_get_length (s : kstr) (h : Reachable s) :
    kstr_size s = (kstr_get s).length + 1 := by
  have hInv := reachable_repInv h
  have hlen := kstr_get_length hInv
  have h1 : 1 ≤ s.used := hInv.1
  unfold kstr_size
  omega

/-- witness for C4 at the state created by new with no text -/
theorem C4_witness : kstr_size kstr0 = (kstr_get kstr0).length + 1 :=
  C4_size_eq_get_length kstr0 (Reachable.new none kstr0 rfl)

/-- C5: basename returns the POSIX basename of the current content (with
the spec's examples "/one/two/file" ↦ "file", "" ↦ ".", "/" ↦ "/",
"." ↦ "."), the result is memoized — the call caches it and a repeated
call without intervening mutation returns the cached value with the
object unchanged — and after set_text the next basename reflects the new
value, never a stale cached one. -/
theorem C5_basename_memoized (s : kstr) (h : Reachable s) :
    ((kstr_new (some [47, 111, 110, 101, 47, 116, 119, 111, 47, 102, 105,
        108, 101])).map (fun u => (kstr_basename u).1)
      = some [102, 105, 108, 101]) ∧
    ((kstr_new (some [])).map (fun u => (kstr_basename u).1)
      = some [46]) ∧
    ((kstr_new (some [47])).map (fun u => (kstr_basename u).1)
      = some [47]) ∧
    ((kstr_new (some [46])).map (fun u => (kstr_basename u).1)
      = some [46]) ∧
    (kstr_basename s).1 = posix_basename (kstr_get s) ∧
    ((kstr_basename s).2).basename = some (kstr_basename s).1 ∧
    kstr_basename ((kstr_basename s).2) = kstr_basename s ∧
    (∀ (v : List Nat) (s' : kstr), kstr_set_text s (some v) = some s' →
      (kstr_basename s').1 = posix_basename (cstr v)) := by
  have hInv := reachable_repInv h
  have hok := reachable_cacheOk h
  refine ⟨by decide, by decide, by decide, by decide,
    kstr_basename_val hok, (kstr_basename_memo s).1,
    (kstr_basename_memo s).2, ?_⟩
  intro v s' hset
  obtain ⟨_, hg, _, _, hb⟩ := kstr_set_text_spec hInv hset
  rw [kstr_basename_val (cacheOk_of_none hb), hg]
  rfl

/-- witness for C5 at the state created by new with no text -/
theorem C5_witness :
    (kstr_basename kstr0).1 = posix_basename (kstr_get kstr0) :=
  (C5_basename_memoized kstr0 (Reachable.new none kstr0 rfl)).2.2.2.2.1

/-- C6: append_text with an absent or empty text is a pure no-op that
leaves the whole object — value, width and cached basename — unchanged;
every other mutating operation (nonempty append_text, the set
operations, the formatted appends including the failed-render case, and
the styling appends), when it returns a string, leaves the basename
cache invalidated. -/
theorem C6_cache_invalidation (s : kstr) (hInv : RepInv s) :
    kstr_add_text s none = some s ∧
    kstr_add_text s (some []) = some s ∧
    (∀ (x : List Nat) (s' : kstr), cstr x ≠ [] →
      kstr_add_text s (some x) = some s' → s'.basename = none) ∧
    (∀ (x : Option (List Nat)) (s' : kstr),
      kstr_set_text s x = some s' → s'.basename = none) ∧
    (∀ (r : Option (List Nat)) (s' : kstr),
      kstr_add_vfmt s r = some s' → s'.basename = none) ∧
    (∀ (r : Option (List Nat)) (s' : kstr),
      kstr_set_vfmt s r = some s' → s'.basename = none) ∧
    (∀ (b : Bool) (s' : kstr), kstr_add_bold s b = some s' →
      s'.basename = none) ∧
    (∀ (c : Nat) (s' : kstr), kstr_add_fg s c = some s' →
      s'.basename = none) ∧
    (∀ (c : Nat) (s' : kstr), kstr_add_bg s c = some s' →
      s'.basename = none) ∧
    (∀ s' : kstr, kstr_add_reset s = some s' → s'.basename = none) := by
  refine ⟨rfl, rfl, ?_, ?_, ?_, ?_, ?_, ?_, ?_, ?_⟩
  · intro x s' hne h
    exact (kstr_add_text_spec hInv h).2.2.2.2.1 hne
  · intro x s' h
    exact (kstr_set_text_spec hInv h).2.2.2.2
  · intro r s' h
    unfold kstr_add_vfmt at h
    cases hk : kstr_ensure grow_fuel s (r.getD []).length with
    | none => rw [hk] at h; exact absurd h (by simp)
    | some u => rw [hk] at h; have := Option.some.inj h; subst this; rfl
  · intro r s' h
    have h' : kstr_add_vfmt (kstr_reset s) r = some s' := h
    unfold kstr_add_vfmt at h'
    cases hk : kstr_ensure grow_fuel (kstr_reset s) (r.getD []).length with
    | none => rw [hk] at h'; exact absurd h' (by simp)
    | some u => rw [hk] at h'; have := Option.some.inj h'; subst this; rfl
  · intro b s' h
    exact (kstr_add_bold_spec hInv h).2.2.2
  · intro c s' h
    exact (kstr_add_fg_spec hInv h).2.2.2.2
  · intro c s' h
    exact (kstr_add_bg_spec hInv h).2.2.2.2
  · intro s' h
    exact (kstr_add_reset_spec hInv h).2.2.2

/-- witness for C6 at the empty string object -/
theorem C6_witness : kstr_add_text kstr0 none = some kstr0 :=
  (C6_cache_invalidation kstr0 repInv_kstr0).1

/-- C7 counterexample: at a buffer size of `size_t_max - 1`, doubling
would overflow `size_t`, yet `kstr_grow` neither aborts nor doubles: it
succeeds with the size clamped to `size_t_max`. -/
theorem C7_counterexample :
    kstr_grow cex7 ≠ none ∧
    kstr_grow cex7 = some { cex7 with data_size := size_t_max } ∧
    (kstr_grow cex7).map kstr.data_size
      ≠ some (cex7.data_size * grow_factor) := by
  decide

/-- C7 amended: the grow step doubles the capacity when the doubled value
is representable (preserving contents and counters); when doubling would
overflow `size_t` it instead clamps the capacity to the maximum
representable size and still succeeds; only when the capacity already
equals the platform maximum is growing a fatal allocation failure. -/
theorem C7_grow_amended (s : kstr) :
    (s.data_size = size_t_max → kstr_grow s = none) ∧
    (s.data_size ≠ size_t_max →
      s.data_size ≤ size_t_max / grow_factor →
      kstr_grow s
        = some { s with data_size := s.data_size * grow_factor }) ∧
    (s.data_size ≠ size_t_max →
      size_t_max / grow_factor < s.data_size →
      kstr_grow s = some { s with data_size := size_t_max }) := by
  refine ⟨?_, ?_, ?_⟩
  · intro he
    unfold kstr_grow
    rw [if_pos he]
  · intro hne hle
    unfold kstr_grow
    rw [if_neg hne, if_neg (Nat.not_lt.mpr hle)]
  · intro hne hlt
    unfold kstr_grow
    rw [if_neg hne, if_pos hlt]

/-- witness for C7 at the empty string object, whose capacity 64 doubles -/
theorem C7_witness :
    kstr_grow kstr0
      = some { kstr0 with data_size := kstr0.data_size * grow_factor } :=
  (C7_grow_amended kstr0).2.1 (by decide) (by decide)

/-- C8: a null/absent format string — the negative dry-run length case of
the host `vsnprintf`, per the spec and the test program — makes
append_formatted return normally with content, size and width unchanged,
and makes set_formatted return normally with the value set to empty; no
error or abort occurs. -/
theorem C8_null_format (s : kstr) (hInv : RepInv s) :
    kstr_add_vfmt s none = some { s with basename := none } ∧
    kstr_set_vfmt s none
      = some
          { s with data := [0], used := 1, width := 0, basename := none } ∧
    (∀ s' : kstr, kstr_add_vfmt s none = some s' →
      kstr_get s' = kstr_get s ∧ kstr_size s' = kstr_size s ∧
      kstr_width s' = kstr_width s) ∧
    (∀ s' : kstr, kstr_set_vfmt s none = some s' →
      kstr_get s' = [] ∧ kstr_size s' = 1 ∧ kstr_width s' = 0) := by
  have h1 := kstr_add_vfmt_none hInv
  have h2 : kstr_set_vfmt s none
      = some
          { s with data := [0], used := 1, width := 0, basename := none } := by
    unfold kstr_set_vfmt
    exact kstr_add_vfmt_none (repInv_reset hInv)
  refine ⟨h1, h2, ?_, ?_⟩
  · intro s' h
    rw [h1] at h
    have := Option.some.inj h; subst this
    exact ⟨rfl, rfl, rfl⟩
  · intro s' h
    rw [h2] at h
    have := Option.some.inj h; subst this
    exact ⟨rfl, rfl, rfl⟩

/-- witness for C8 at the empty string object -/
theorem C8_witness :
    kstr_add_vfmt kstr0 none = some { kstr0 with basename := none } :=
  (C8_null_format kstr0 repInv_kstr0).1

/-- C9: for each color value of the 9-value enumeration,
append_foreground and append_background append exactly the corresponding
entry of the fixed code tables — pinned here byte for byte — while
append_bold appends exactly ESC[1m (set) or ESC[22m (clear) and
append_reset exactly ESC[0m; a color value outside the enumeration makes
the styling helper abort instead of returning a string. -/
theorem C9_styling_codes (s : kstr) (hInv : RepInv s) :
    (∀ (c : Nat) (s' : kstr), c < kstr_num_colors →
      kstr_add_fg s c = some s' →
      kstr_get s' = kstr_get s ++ fg_codes.getD c []) ∧
    (∀ (c : Nat) (s' : kstr), c < kstr_num_colors →
      kstr_add_bg s c = some s' →
      kstr_get s' = kstr_get s ++ bg_codes.getD c []) ∧
    (∀ c : Nat, kstr_num_colors ≤ c →
      kstr_add_fg s c = none ∧ kstr_add_bg s c = none) ∧
    (∀ s' : kstr, kstr_add_bold s true = some s' →
      kstr_get s' = kstr_get s ++ [27, 91, 49, 109]) ∧
    (∀ s' : kstr, kstr_add_bold s false = some s' →
      kstr_get s' = kstr_get s ++ [27, 91, 50, 50, 109]) ∧
    (∀ s' : kstr, kstr_add_reset s = some s' →
      kstr_get s' = kstr_get s ++ [27, 91, 48, 109]) ∧
    fg_codes = [[27, 91, 51, 57, 109], [27, 91, 51, 48, 109],
      [27, 91, 51, 52, 109], [27, 91, 51, 54, 109], [27, 91, 51, 50, 109],
      [27, 91, 51, 53, 109], [27, 91, 51, 49, 109], [27, 91, 51, 55, 109],
      [27, 91, 51, 51, 109]] ∧
    bg_codes = [[27, 91, 52, 57, 109], [27, 91, 52, 48, 109],
      [27, 91, 52, 52, 109], [27, 91, 52, 54, 109], [27, 91, 52, 50, 109],
      [27, 91, 52, 53, 109], [27, 91, 52, 49, 109], [27, 91, 52, 55, 109],
      [27, 91, 52, 51, 109]] := by
  refine ⟨?_, ?_, ?_, ?_, ?_, ?_, rfl, rfl⟩
  · intro c s' _ h
    exact (kstr_add_fg_spec hInv h).2.1
  · intro c s' _ h
    exact (kstr_add_bg_spec hInv h).2.1
  · intro c hc
    constructor
    · unfold kstr_add_fg
      rw [if_pos hc]
    · unfold kstr_add_bg
      rw [if_pos hc]
  · intro s' h
    simpa using (kstr_add_bold_spec hInv h).2.1
  · intro s' h
    simpa using (kstr_add_bold_spec hInv h).2.1
  · intro s' h
    exact (kstr_add_reset_spec hInv h).2.1

/-- witness for C9: an out-of-range color aborts both helpers -/
theorem C9_witness :
    kstr_add_fg kstr0 9 = none ∧ kstr_add_bg kstr0 9 = none :=
  (C9_styling_codes kstr0 repInv_kstr0).2.2.1 9 (le_refl 9)

/-- C10: when the dry-run length computation reports a negative rendered
length (`rendered = none`), append_formatted appends no bytes — content,
size and width are unchanged — but it still discards any cached basename
and returns the handle normally rather than aborting. -/
theorem C10_negative_length (s : kstr) (hInv : RepInv s) :
    ∃ s', kstr_add_vfmt s none = some s' ∧
      kstr_get s' = kstr_get s ∧ kstr_size s' = kstr_size s ∧
      kstr_width s' = kstr_width s ∧ s'.basename = none :=
  ⟨{ s with basename := none }, kstr_add_vfmt_none hInv, rfl, rfl, rfl, rfl⟩

/-- witness for C10 at the empty string object -/
theorem C10_witness :
    ∃ s', kstr_add_vfmt kstr0 none = some s' ∧
      kstr_get s' = kstr_get kstr0 ∧ kstr_size s' = kstr_size kstr0 ∧
      kstr_width s' = kstr_width kstr0 ∧ s'.basename = none :=
  C10_negative_length kstr0 repInv_kstr0
